import Mathlib

/-!
Shallow embedding of the pyzamboni ICE-archive codec (src/zamboni), with
theorems settling the frozen claims about it.

Bytes are modelled as `Nat` values (< 256 in well-formed data); byte strings
as `List Nat`; Python's unbounded integers as `Nat`/`Int` with explicit
`% 2^32` where the source casts via `int32_to_uint32`.  Fallible
operations (Python exceptions) return `Option`.
-/

namespace Zamboni

/-- Little-endian u32 from the first four entries of a byte list
(`struct.unpack_from("<I", ...)`); out-of-range entries default to 0
(callers in the source always supply at least four bytes). -/
def le32 (b : List Nat) : Nat :=
  b.getD 0 0 + 256 * b.getD 1 0 + 65536 * b.getD 2 0 + 16777216 * b.getD 3 0

/-- Little-endian u32 read at offset `i` of `data`. -/
def le32At (data : List Nat) (i : Nat) : Nat :=
  le32 (data.drop i)

/-- Modelled from the spec: CRC-32 (module `zamboni.crc` is not under src/).
Standard IEEE 802.3 polynomial, reflected, seed `0xFFFFFFFF`, final XOR
`0xFFFFFFFF` (spec section 4.1). -/
def crc32 (data : List Nat) : Nat :=
  let step8 : Nat → Nat := fun c =>
    (List.range 8).foldl
      (fun c _ => if c % 2 = 1 then (c / 2) ^^^ 0xEDB88320 else c / 2) c
  (data.foldl (fun c b => step8 (c ^^^ b)) 0xFFFFFFFF) ^^^ 0xFFFFFFFF

/-- Modelled from the spec: compression mode of `CompressOptions`
(class `CompressOptions` of `zamboni.compression` is not under src/;
spec section 9 gives `mode ∈ \x7bNone, Kraken, Prs\x7d` plus a level). -/
inductive CompressMode where
  | none
  | kraken
  | prs
deriving DecidableEq, Repr

/-- `GroupHeader` of `zamboni.group` (four u32 fields). -/
structure GroupHeader where
  original_size : Nat := 0
  compressed_size : Nat := 0
  file_count : Nat := 0
  crc32 : Nat := 0
deriving DecidableEq, Repr

/-- `GroupHeader.stored_size`: `compressed_size if compressed_size else original_size`. -/
def GroupHeader.stored_size (h : GroupHeader) : Nat :=
  if h.compressed_size ≠ 0 then h.compressed_size else h.original_size

/-- `get_group_header` of `zamboni.group` (lines 47-53): the header records
`compressed_size = len(data)` and `crc32 = crc32(data)` for the stored
bytes `data`, unconditionally. -/
def get_group_header (data : List Nat) (file_count : Nat) (original_size : Nat) :
    GroupHeader :=
  { original_size := original_size
    compressed_size := data.length
    file_count := file_count
    crc32 := crc32 data }

/-- `compress_group` of `zamboni.group` (lines 114-132).  The Kraken and PRS
compressors are external oracles (module `ooz` and `zamboni.prs` are not
under src/), passed here as function arguments `kraken` (data, level) and
`prs`; the XOR `0x95` masking of the PRS output (line 129) is embedded. -/
def compress_group (kraken : List Nat → Nat → List Nat) (prs : List Nat → List Nat)
    (mode : CompressMode) (level : Nat) (data : List Nat) : List Nat :=
  if data = [] then data
  else
    match mode with
    | .none => data
    | .kraken => kraken data level
    | .prs => (prs data).map (fun b => b ^^^ 0x95)

/-- `is_nifl` of `zamboni.util`: the data starts with the bytes of `NIFL`. -/
def is_nifl (data : List Nat) : Bool :=
  data.take 4 = [0x4E, 0x49, 0x46, 0x4C]

/-- `is_headerless_file` of `zamboni.util` (lines 23-29):
`(char < 32 or char > 64) and (char < 91 or char > 126)` on the first byte.
Python raises IndexError on empty input; the claims only apply this to
non-empty data, where `headD 0` coincides with `data[0]`. -/
def is_headerless_file (data : List Nat) : Bool :=
  let c := data.headD 0
  ((c < 32 || c > 64) && (c < 91 || c > 126))

/-- `floatage_decrypt_block` of `zamboni.encrpytion` (lines 20-24): derive
`xor_byte = ((key_uint >> shift) ^ key_uint) & 0xFF` from the little-endian
u32 of the 4-byte key and XOR every byte that is neither `0` nor `xor_byte`. -/
def floatage_decrypt_block (data : List Nat) (key : List Nat) (shift : Nat := 16) :
    List Nat :=
  let key_uint := le32 key
  let xor_byte := ((key_uint >>> shift) ^^^ key_uint) &&& 0xFF
  data.map (fun b => if b ≠ 0 ∧ b ≠ xor_byte then b ^^^ xor_byte else b)

/-- The `_get_key` helper of `zamboni.encrpytion` (lines 71-85): pick four
bytes of the 256-byte `keys` blob at indices derived from `temp_key`,
rotate each and assemble a u32.  Python's `((temp_key >> 24) - 58) & 0xFF`
can have a negative intermediate; `(x - 58) & 0xFF = (x + 198) % 256`, so
the embedding adds `198` instead of subtracting `58`.  `keys[i]` is
modelled by `getD` (the blob is always 0x100 bytes in the source, so the
8-bit indices are in range). -/
def get_key (keys : List Nat) (temp_key : Nat) : Nat :=
  let num1 := ((temp_key &&& 0xFF) + 93) &&& 0xFF
  let num2 := ((temp_key >>> 8) + 63) &&& 0xFF
  let num3 := ((temp_key >>> 16) + 69) &&& 0xFF
  let num4 := ((temp_key >>> 24) + 198) &&& 0xFF
  let get_byte : Nat → Nat → Nat → Nat → Nat := fun idx shift1 shift2 shift3 =>
    (((keys.getD idx 0) <<< shift1 ||| (keys.getD idx 0) >>> shift2) &&& 0xFF) <<< shift3
  get_byte num2 7 1 24 ||| get_byte num4 6 2 16 |||
    get_byte num1 5 3 8 ||| get_byte num3 5 3 0

/-- The loop count computed by `_calc_blowfish_keys` (lines 90-93) from
`temp_key1 = 0x8E02C25C ^ temp_key`: the magic-number divide-by-7 sequence
followed by `temp_key1 - num2 + 2`.  All intermediate values are
non-negative in Python (`num1 ≤ t` since the multiplier is below `2^32`,
and `num2 = 7 * (t / 7) ≤ t` for `t < 2^32`), so `Nat` subtraction agrees. -/
def magic_loop_count (t : Nat) : Nat :=
  let num1 := (0x24924925 * t) >>> 32
  let num2 := ((((t - num1) >>> 1) + num1) >>> 2) * 7
  t - num2 + 2

/-- `_calc_blowfish_keys` of `zamboni.encrpytion` (lines 88-96).  The final
line is `int32_to_uint32(temp_key1 ^ 0x4352F5C2 ^ -0x32AFC862)`: XOR of a
value below `2^32` with the infinite-precision two's complement of
`-0x32AFC862` (low 32 bits `0xCD50379E`, all higher bits set), followed by
a cast to u32, equals XOR with `0xCD50379E` reduced mod `2^32`. -/
def calc_blowfish_keys (keys : List Nat) (temp_key : Nat) : Nat :=
  let t0 := 0x8E02C25C ^^^ temp_key
  let t1 := Nat.iterate (get_key keys) (magic_loop_count t0) t0
  (t1 ^^^ 0x4352F5C2 ^^^ 0xCD50379E) % 2 ^ 32

/-- `decrypt_group` of `zamboni.group` (lines 84-99).  The Blowfish wrapper
`blowfish_decrypt` depends on the external `Crypto.Cipher.Blowfish` oracle
and the floatage wrapper `floatage_decrypt` is not under src/ (only
`floatage_decrypt_block` is); both are passed as function arguments
`bf data key` and `fl data key`, preserving the source's call structure:
floatage under `key1` unless `v3_decrypt`, then Blowfish under `key1`,
then Blowfish under `key2` when `not v3_decrypt` and the (current) data
length is at most `second_pass_threshold`. -/
def decrypt_group (bf : List Nat → List Nat → List Nat)
    (fl : List Nat → List Nat → List Nat)
    (data : List Nat) (key1 key2 : List Nat)
    (second_pass_threshold : Nat) (v3_decrypt : Bool) : List Nat :=
  let d1 := if v3_decrypt then data else fl data key1
  let d2 := bf d1 key1
  if ¬v3_decrypt ∧ d2.length ≤ second_pass_threshold then bf d2 key2 else d2

/-- `extract_group` of `zamboni.group` (lines 56-81), with the stream
modelled as the list of its unread bytes (result = extracted payload,
remaining stream).  Decryption and decompression are the separate source
functions `decrypt_group` / `decompress_group`, passed as arguments
`decrypt` and `decompress data original_size` so that the short-circuit
for `stored_size == 0` (lines 65-66) is visible: it returns before any
read, decrypt or decompress. -/
def extract_group (header : GroupHeader) (stream : List Nat)
    (decrypt : List Nat → List Nat) (decompress : List Nat → Nat → List Nat)
    (encrypted : Bool) : List Nat × List Nat :=
  if header.stored_size = 0 then ([], stream)
  else
    let data := stream.take header.stored_size
    let rest := stream.drop header.stored_size
    let data := if encrypted then decrypt data else data
    let data :=
      if header.compressed_size ≠ 0 then decompress data header.original_size
      else data
    (data, rest)

/-- Signed interpretation of a u32 (`struct` format `i`). -/
def i32_of_u32 (n : Nat) : Int :=
  if n < 2 ^ 31 then (n : Int) else (n : Int) - 2 ^ 32

/-- `stream.read(n)` at position `pos` for a Python `int` count: a negative
count reads to the end of the buffer. -/
def readAt (data : List Nat) (pos : Nat) (n : Int) : List Nat :=
  if n < 0 then data.drop pos else (data.drop pos).take n.toNat

/-- `DataFileHeader` of `zamboni.datafile` (fixed struct `<4sIIIII40x`
followed by the filename bytes). -/
structure DataFileHeader where
  extension : List Nat
  file_size : Nat
  data_size : Nat
  header_size : Nat
  filename_size : Nat
  field_0x14 : Nat
  filename_bytes : List Nat
deriving DecidableEq, Repr

/-- `DataFileHeader.read` of `zamboni.datafile` (lines 29-39): unpack the
64-byte fixed struct at `start` (`struct.error`, i.e. `none`, when fewer
than 64 bytes remain), read `filename_size` bytes (short reads allowed),
then seek to `start + header_size`.  Returns the header and the new
stream position.  The source performs no validation of the decoded
fields. -/
def DataFileHeader.read (data : List Nat) (start : Nat) :
    Option (DataFileHeader × Nat) :=
  if start + 64 ≤ data.length then
    let filename_size := le32At data (start + 16)
    some
      ({ extension := (data.drop start).take 4
         file_size := le32At data (start + 4)
         data_size := le32At data (start + 8)
         header_size := le32At data (start + 12)
         filename_size := filename_size
         field_0x14 := le32At data (start + 20)
         filename_bytes := (data.drop (start + 64)).take filename_size },
       start + le32At data (start + 12))
  else none

/-- `DataFile.from_stream` of `zamboni.datafile` (lines 95-114), reduced to
the stream motion the claims depend on: peek 4 bytes (IndexError, `none`,
when the stream is exhausted: `is_headerless_file(b"")` indexes an empty
bytes object); a headerless record consumes the rest of the stream; a
normal record reads its header, `data_size` payload bytes and seeks over
`pad_size = file_size - header_size - data_size` (a negative final
position raises, `none`).  Returns the position after the record; the
`DataFile` value itself (name decoding, payload bytes) is not inspected
by any claim. -/
def dataFile_from_stream (data : List Nat) (pos : Nat) : Option Nat :=
  let ext := (data.drop pos).take 4
  if ext = [] then none
  else if is_headerless_file ext then some data.length
  else
    match DataFileHeader.read data pos with
    | none => none
    | some (h, pos1) =>
      let afterData := pos1 + min h.data_size (data.length - pos1)
      let pad : Int := (h.file_size : Int) - h.header_size - h.data_size
      if pad = 0 then some afterData
      else
        let target : Int := (afterData : Int) + pad
        if target < 0 then none else some target.toNat

/-- The record-extent computation of `_split_headerless_nifl`
(`zamboni.group` lines 179-188), for a record starting at `start`
(which begins with the 4-byte `NIFL` tag): `read_struct("16xi")` consumes
the 20 bytes after the tag, so the i32 body length sits at `start + 0x14`;
seek `size - 0x10` forward from `start + 0x18`, read the i32 `NOF0` length
there (at `start + size + 8`) and add 8; then add `0x10 - (that % 0x10)`
padding bytes (a full extra `0x10` when already a multiple), and another
`0x10` for the `NEND` marker.  `none` models `struct.error` on a short
read and `ValueError` on a negative seek. -/
def nifl_record_extent (data : List Nat) (start : Nat) : Option Int :=
  if start + 24 ≤ data.length then
    let size : Int := i32_of_u32 (le32At data (start + 20))
    let target : Int := (start : Int) + 24 + (size - 16)
    if target < 0 then none
    else if target.toNat + 4 ≤ data.length then
      let nof0 : Int := i32_of_u32 (le32At data target.toNat) + 8
      let nof0p : Int := nof0 + (16 - nof0.emod 16)
      some (size + nof0p + 16)
    else none
  else none

/-- The loop of `_split_headerless_nifl` (`zamboni.group` lines 170-193),
returning the raw byte span of each record (the bytes handed to
`DataFile.from_bytes`, line 191, or to `DataFile.from_stream` for a
trailing nameless record, line 176).  A record whose first four bytes are
not `NIFL` consumes the remainder (up to where `from_stream` leaves the
stream) and ends the loop. -/
def split_nifl_loop (data : List Nat) : Nat → Nat → Option (List (List Nat))
  | 0, _ => some []
  | n + 1, pos =>
    if (data.drop pos).take 4 ≠ [0x4E, 0x49, 0x46, 0x4C] then
      match dataFile_from_stream data pos with
      | none => none
      | some pos1 => some [(data.drop pos).take (pos1 - pos)]
    else
      match nifl_record_extent data pos with
      | none => none
      | some ext =>
        let chunk := readAt data pos ext
        match dataFile_from_stream chunk 0 with
        | none => none
        | some _ => (split_nifl_loop data n (pos + chunk.length)).map (chunk :: ·)

/-- `_split_headerless_nifl` of `zamboni.group` (lines 166-193). -/
def split_headerless_nifl (header : GroupHeader) (data : List Nat) :
    Option (List (List Nat)) :=
  split_nifl_loop data header.file_count 0

/-- The loop of `_split_normal_group` (`zamboni.group` lines 208-209),
returning each record's raw byte span. -/
def split_normal_loop (data : List Nat) : Nat → Nat → Option (List (List Nat))
  | 0, _ => some []
  | n + 1, pos =>
    match dataFile_from_stream data pos with
    | none => none
    | some pos1 => (split_normal_loop data n pos1).map ((data.drop pos).take (pos1 - pos) :: ·)

/-- `_split_normal_group` of `zamboni.group` (lines 204-211). -/
def split_normal_group (header : GroupHeader) (data : List Nat) :
    Option (List (List Nat)) :=
  split_normal_loop data header.file_count 0

/-- `split_group` of `zamboni.group` (lines 153-163): empty data
short-circuits to the empty list before any dispatch; otherwise dispatch
on `is_nifl`, then `is_headerless_file` (where a `file_count` other than 1
raises `ValueError`, modelled as `none`), else the normal split. -/
def split_group (header : GroupHeader) (data : List Nat) :
    Option (List (List Nat)) :=
  if data = [] then some []
  else if is_nifl data then split_headerless_nifl header data
  else if is_headerless_file data then
    if header.file_count ≠ 1 then none else some [data]
  else split_normal_group header data

/-- Python slice `l[a : b]` with `int` bounds: a negative bound counts from
the end, and both bounds are clamped to `[0, len(l)]`. -/
def pySlice (l : List Nat) (a b : Int) : List Nat :=
  let n : Int := l.length
  let a1 : Int := if a < 0 then max (n + a) 0 else min a n
  let b1 : Int := if b < 0 then max (n + b) 0 else min b n
  (l.drop a1.toNat).take (b1 - a1).toNat

/-- State of the PRS decoder of `zamboni.compression.decompress_prs`:
input position, control-byte register, control-bit counter, output. -/
structure PrsState where
  pos : Nat
  ctrl : Nat
  cnt : Nat
  out : List Nat
deriving DecidableEq, Repr

/-- Result of the decoder: `done` is a normal return (including the
`StopIteration` path), `raised` is the uncaught `IndexError` thrown when
the input is exhausted at a control-byte refill (line 28 indexes the empty
result of `read(1)`). -/
inductive PrsResult where
  | raised : PrsResult
  | done : List Nat → PrsResult
deriving DecidableEq, Repr

/-- `read_byte` (lines 17-21); `none` models `StopIteration`. -/
def prsReadByte (data : List Nat) (st : PrsState) : Option (Nat × PrsState) :=
  match data.get? st.pos with
  | some b => some (b, { st with pos := st.pos + 1 })
  | none => none

/-- `get_ctrl_bit` (lines 23-33): decrement the counter, refill the control
byte from the stream when it reaches zero (an exhausted stream here raises
IndexError, `none`), then emit the low bit and shift. -/
def prsGetCtrlBit (data : List Nat) (st : PrsState) : Option (Bool × PrsState) :=
  if st.cnt - 1 = 0 then
    match data.get? st.pos with
    | none => none
    | some c =>
      some ((c &&& 1) == 1, { pos := st.pos + 1, ctrl := c >>> 1, cnt := 8, out := st.out })
  else
    some ((st.ctrl &&& 1) == 1, { st with ctrl := st.ctrl >>> 1, cnt := st.cnt - 1 })

/-- The literal loop `while get_ctrl_bit(): output.append(read_byte())`
(lines 37-38).  `inl` is a terminal outcome (return or raise), `inr` the
state in which the loop exited on a 0 bit.  Each iteration that continues
consumes an input byte, so fuel `data.length + 1` always suffices. -/
def prsLiterals (data : List Nat) : Nat → PrsState → PrsResult ⊕ PrsState
  | 0, st => .inr st
  | fuel + 1, st =>
    match prsGetCtrlBit data st with
    | none => .inl .raised
    | some (false, st1) => .inr st1
    | some (true, st1) =>
      match prsReadByte data st1 with
      | none => .inl (.done st1.out)
      | some (b, st2) => prsLiterals data fuel { st2 with out := st2.out ++ [b] }

/-- Lines 65-67: clamp `control_size` to `out_size - len(output)`, then
`output.extend(output[load_index : load_index + control_size])` where
`load_index = len(output) + control_offset`.  The extension is a Python
slice of the output as it was before the copy began. -/
def prsExtend (out_size : Nat) (st : PrsState) (offset : Int) (cs0 : Nat) : PrsState :=
  let cs : Int := min (cs0 : Int) ((out_size : Int) - st.out.length)
  let a : Int := (st.out.length : Int) + offset
  { st with out := st.out ++ pySlice st.out a (a + cs) }

/-- One back-reference step (lines 40-67): the long form behind a 1 control
bit (two bytes `d0, d1`, `(0,0)` sentinel, optional extra length byte) or
the short form behind a 0 control bit (two size bits plus one offset
byte), each ending in the clamped slice copy.  `inl` is a terminal
outcome, `inr` the state for the next outer-loop iteration. -/
def prsCopy (data : List Nat) (out_size : Nat) (st : PrsState) : PrsResult ⊕ PrsState :=
  match prsGetCtrlBit data st with
  | none => .inl .raised
  | some (true, st1) =>
    if out_size ≤ st1.out.length then .inl (.done st1.out)
    else
      match prsReadByte data st1 with
      | none => .inl (.done st1.out)
      | some (d0, st2) =>
        match prsReadByte data st2 with
        | none => .inl (.done st2.out)
        | some (d1, st3) =>
          if d0 = 0 ∧ d1 = 0 then .inl (.done st3.out)
          else
            let offset : Int := ((d1 <<< 5) + (d0 >>> 3) : Int) - 0x2000
            let size := d0 &&& 7
            if size ≠ 0 then .inr (prsExtend out_size st3 offset (size + 2))
            else
              match prsReadByte data st3 with
              | none => .inl (.done st3.out)
              | some (e, st4) => .inr (prsExtend out_size st4 offset (e + 10))
  | some (false, st1) =>
    match prsGetCtrlBit data st1 with
    | none => .inl .raised
    | some (b1, st2) =>
      match prsGetCtrlBit data st2 with
      | none => .inl .raised
      | some (b2, st3) =>
        let cs := 2 + (if b1 then 2 else 0) + (if b2 then 1 else 0)
        match prsReadByte data st3 with
        | none => .inl (.done st3.out)
        | some (ob, st4) => .inr (prsExtend out_size st4 ((ob : Int) - 0x100) cs)

/-- The outer loop `while len(output) < out_size` (lines 36-67).  Every
iteration that reaches the next one consumes at least one input byte, so
fuel `data.length + 1` always suffices; on fuel exhaustion the output so
far is returned (never reached from `decompress_prs`). -/
def prsLoop (data : List Nat) (out_size : Nat) : Nat → PrsState → PrsResult
  | 0, st => .done st.out
  | fuel + 1, st =>
    if st.out.length < out_size then
      match prsLiterals data (data.length + 1) st with
      | .inl r => r
      | .inr st1 =>
        match prsCopy data out_size st1 with
        | .inl r => r
        | .inr st2 => prsLoop data out_size fuel st2
    else .done st.out

/-- `decompress_prs` of `zamboni.compression` (lines 10-72): initial state
has an empty output and a control counter of 1 (forcing a refill on the
first control bit). -/
def decompress_prs (data : List Nat) (out_size : Nat) : PrsResult :=
  prsLoop data out_size (data.length + 1) ⟨0, 0, 1, []⟩

/-- The NIFL record extent as the claim words it (for comparison with
`nifl_record_extent`, which is taken from the source): body length as an
i32 at offset `0x10` from the record start, then a seek of `size - 0x10`
from the position after that read (so the `NOF0` length i32 is read at
`start + size + 4`), plus 8 for the `NOF0` tag and size, padded up to a
multiple of `0x10`, plus another `0x10` for the trailing `NEND` marker. -/
def claim_nifl_record_extent (data : List Nat) (start : Nat) : Option Int :=
  if start + 20 ≤ data.length then
    let size : Int := i32_of_u32 (le32At data (start + 16))
    let target : Int := (start : Int) + 20 + (size - 16)
    if target < 0 then none
    else if target.toNat + 4 ≤ data.length then
      let nof0 : Int := i32_of_u32 (le32At data target.toNat) + 8
      let nof0p : Int := if nof0.emod 16 = 0 then nof0 else nof0 + (16 - nof0.emod 16)
      some (size + nof0p + 16)
    else none
  else none

/-- A 64-byte single-record headerless-NIFL group payload: `NIFL` tag, the
u32 at offset `0x10` is 40 and the u32 at offset `0x14` is 32, the `NOF0`
length i32 at offset 40 (= 32 + 8) is 1 and the one at offset 44 is 0. -/
def niflSample : List Nat :=
  [78, 73, 70, 76] ++ List.replicate 12 0 ++ [40, 0, 0, 0] ++ [32, 0, 0, 0] ++
    List.replicate 16 0 ++ [1, 0, 0, 0] ++ List.replicate 4 0 ++ List.replicate 16 0

end Zamboni

namespace Zamboni

/-- C1: the v4 writer builds each group header as
`get_group_header(compress_group(plaintext, mode), file_count, len(plaintext))`
(`icefile.py` lines 333-345), and `get_group_header` stores
`compressed_size = len(data)` unconditionally; with compression mode
`none` and the non-empty plaintext `[1, 2, 3]` the header records
`compressed_size = 3`, the plaintext length, not `0` as the claim and the
spec invariant (`compressed_size == 0` iff stored uncompressed) require —
a reader then treats the group as compressed. -/
theorem c1_writer_header_nonzero_compressed_size :
    (get_group_header
        (compress_group (fun d _ => d) (fun d => d) CompressMode.none 0 [1, 2, 3])
        1 3).compressed_size = 3 ∧ (3 : Nat) ≠ 0 := by
  constructor
  · rfl
  · decide

/-- C5 counterexample: on 0x60 zero bytes the decoded fields have
`header_size = 0 < 0x50`, yet `DataFileHeader.read` succeeds (returns a
header), contradicting the claim that decoding fails with MalformedRecord
exactly when the bounds are violated. -/
theorem c5_counterexample :
    DataFileHeader.read (List.replicate 96 0) 0 =
      some ({ extension := [0, 0, 0, 0], file_size := 0, data_size := 0,
              header_size := 0, filename_size := 0, field_0x14 := 0,
              filename_bytes := [] }, 0) ∧ (0 : Nat) < 0x50 := by
  constructor
  · rfl
  · decide

/-- C5 (amended): `DataFileHeader.read` performs no validation at all: on
any input with at least the 64 fixed-struct bytes available it returns
the decoded header (fields read little-endian from the struct) and the
position `start + header_size`, regardless of how `header_size`,
`data_size` and `file_size` relate. -/
theorem c5_read_never_fails (data : List Nat) (start : Nat)
    (h : start + 64 ≤ data.length) :
    DataFileHeader.read data start =
      some
        ({ extension := (data.drop start).take 4
           file_size := le32At data (start + 4)
           data_size := le32At data (start + 8)
           header_size := le32At data (start + 12)
           filename_size := le32At data (start + 16)
           field_0x14 := le32At data (start + 20)
           filename_bytes := (data.drop (start + 64)).take (le32At data (start + 16)) },
         start + le32At data (start + 12)) := by
  unfold DataFileHeader.read
  rw [if_pos h]

/-- Witness for `c5_read_never_fails` at 96 zero bytes. -/
theorem c5_read_never_fails_witness :
    (0 : Nat) + 64 ≤ (List.replicate 96 (0 : Nat)).length ∧
      DataFileHeader.read (List.replicate 96 0) 0 =
        some
          ({ extension := ((List.replicate 96 (0 : Nat)).drop 0).take 4
             file_size := le32At (List.replicate 96 0) 4
             data_size := le32At (List.replicate 96 0) 8
             header_size := le32At (List.replicate 96 0) 12
             filename_size := le32At (List.replicate 96 0) 16
             field_0x14 := le32At (List.replicate 96 0) 20
             filename_bytes :=
               ((List.replicate 96 (0 : Nat)).drop 64).take
                 (le32At (List.replicate 96 0) 16) },
           0 + le32At (List.replicate 96 0) 12) :=
  ⟨by decide, c5_read_never_fails (List.replicate 96 0) 0 (by decide)⟩

/-- C6 counterexample: at first byte `0x7E` the source predicate
`is_headerless_file` is `false`, while the claim's formula
`c < 0x20 || (c > 0x40 && c < 0x5B) || c > 0x7D` holds, so the two
disagree at `c = 0x7E`. -/
theorem c6_counterexample :
    is_headerless_file [0x7E] = false ∧
      ((0x7E : Nat) < 0x20 ∨ (0x40 < (0x7E : Nat) ∧ (0x7E : Nat) < 0x5B) ∨
        0x7D < (0x7E : Nat)) := by
  constructor
  · rfl
  · decide

/-- C6 (amended): on every non-empty byte string the predicate agrees with
the formula `c < 0x20 || (0x40 < c && c < 0x5B) || 0x7E < c` on the first
byte — the last disjunct is `c > 0x7E` (`char > 126` in the source), not
`c > 0x7D`. -/
theorem c6_is_headerless_file_formula (c : Nat) (rest : List Nat) :
    is_headerless_file (c :: rest) =
      decide (c < 0x20 ∨ (0x40 < c ∧ c < 0x5B) ∨ 0x7E < c) := by
  simp only [is_headerless_file, List.headD_cons]
  rw [Bool.eq_iff_iff]
  simp only [Bool.and_eq_true, Bool.or_eq_true, decide_eq_true_eq]
  omega

/-- C7: stage structure of `decrypt_group`.  With `v3_decrypt` only the
single Blowfish pass under `key1` runs (no floatage, no second pass, for
any length); without it, floatage under `key1`, then Blowfish under
`key1`, then Blowfish under `key2` exactly when the data length is at
most the threshold (the boundary `length = threshold` included, since the
source compares with `<=`).  The primitives are assumed
length-preserving, as the wrappers in the source are, so the threshold
test on the post-Blowfish data equals one on the input length. -/
theorem c7_decrypt_group_stages (bf fl : List Nat → List Nat → List Nat)
    (hbf : ∀ d k, (bf d k).length = d.length)
    (hfl : ∀ d k, (fl d k).length = d.length)
    (data k1 k2 : List Nat) (thr : Nat) :
    decrypt_group bf fl data k1 k2 thr true = bf data k1 ∧
      decrypt_group bf fl data k1 k2 thr false =
        (if data.length ≤ thr then bf (bf (fl data k1) k1) k2
         else bf (fl data k1) k1) := by
  constructor
  · simp [decrypt_group]
  · simp [decrypt_group, hbf, hfl]

/-- Witness for `c7_decrypt_group_stages` with identity-like primitives on
`[1, 2, 3]` at threshold 3 (the boundary case: the second pass applies). -/
theorem c7_decrypt_group_stages_witness :
    decrypt_group (fun d _ => d) (fun d _ => d) [1, 2, 3] [9] [8] 3 true =
        (fun (d : List Nat) (_ : List Nat) => d) [1, 2, 3] [9] ∧
      decrypt_group (fun d _ => d) (fun d _ => d) [1, 2, 3] [9] [8] 3 false =
        (if ([1, 2, 3] : List Nat).length ≤ 3 then [1, 2, 3] else [1, 2, 3]) := by
  have h := c7_decrypt_group_stages (fun d _ => d) (fun d _ => d)
    (fun _ _ => rfl) (fun _ _ => rfl) [1, 2, 3] [9] [8] 3
  exact ⟨h.1, by simpa using h.2⟩

/-- C9: the floatage transform is an involution — applying
`floatage_decrypt_block` twice with the same key and shift is the
identity: bytes equal to `0` or to the derived `xor_byte` are fixed, and
XOR with `xor_byte` undoes itself on all the others. -/
theorem c9_floatage_involution (data key : List Nat) (shift : Nat) :
    floatage_decrypt_block (floatage_decrypt_block data key shift) key shift = data := by
  have key_inv : ∀ x b : Nat,
      (fun b => if b ≠ 0 ∧ b ≠ x then b ^^^ x else b)
          ((fun b => if b ≠ 0 ∧ b ≠ x then b ^^^ x else b) b) = b := by
    intro x b
    by_cases h0 : b = 0
    · simp [h0]
    · by_cases hxb : b = x
      · simp [hxb]
      · have h1 : b ^^^ x ≠ 0 := Nat.xor_ne_zero.mpr hxb
        have h2 : b ^^^ x ≠ x := fun h => h0 (by
          have h3 := congrArg (· ^^^ x) h
          simpa [Nat.xor_cancel_right, Nat.xor_self] using h3)
        simp only [ne_eq, h0, hxb, not_false_eq_true, and_self, if_true, h1, h2,
          if_true, Nat.xor_cancel_right]
  unfold floatage_decrypt_block
  rw [List.map_map]
  have hff :
      ((fun b =>
          if b ≠ 0 ∧ b ≠ ((le32 key >>> shift) ^^^ le32 key) &&& 0xFF then
            b ^^^ ((le32 key >>> shift) ^^^ le32 key) &&& 0xFF
          else b) ∘
        (fun b =>
          if b ≠ 0 ∧ b ≠ ((le32 key >>> shift) ^^^ le32 key) &&& 0xFF then
            b ^^^ ((le32 key >>> shift) ^^^ le32 key) &&& 0xFF
          else b)) = id := by
    funext b
    exact key_inv (((le32 key >>> shift) ^^^ le32 key) &&& 0xFF) b
  rw [hff, List.map_id]

/-- Helper: the magic-number divide-by-7 sequence computes `t % 7 + 2` for
every 32-bit `t`. -/
theorem magic_loop_count_eq_mod (t : Nat) (h : t < 2 ^ 32) :
    magic_loop_count t = t % 7 + 2 := by
  unfold magic_loop_count
  simp only [Nat.shiftRight_eq_div_pow]
  omega

/-- C8 counterexample: with an all-zero key blob and
`temp_key = 0x8E02C25C` (so the XOR seed is 0 and the iterated value is
0), `_calc_blowfish_keys` returns `0 ^ 0x4352F5C2 ^ 0xCD50379E =
0x8E02C25C`, while the claim's formula XORs with `0xCD503798` and yields
`0x8E02C25A` — the two's-complement u32 of `-0x32AFC862` is `0xCD50379E`,
not `0xCD503798`. -/
theorem c8_counterexample :
    calc_blowfish_keys (List.replicate 256 0) 0x8E02C25C = 0x8E02C25C ∧
      (Nat.iterate (get_key (List.replicate 256 0))
            ((0x8E02C25C ^^^ 0x8E02C25C) % 7 + 2) (0x8E02C25C ^^^ 0x8E02C25C) ^^^
          0x4352F5C2 ^^^ 0xCD503798) % 2 ^ 32 = 0x8E02C25A ∧
      (0x8E02C25C : Nat) ≠ 0x8E02C25A := by
  refine ⟨by decide, by decide, by decide⟩

/-- C8 (amended): the magic-number sequence
`q = (0x24924925*t) >> 32; r = (((t-q) >> 1) + q) >> 2;
(t - r*7) + 2` equals `(t % 7) + 2` for every 32-bit `t`; consequently
`_calc_blowfish_keys` iterates `_get_key` exactly
`((0x8E02C25C ^ temp_key) % 7) + 2` times and returns the iterated value
XOR `0x4352F5C2` XOR `0xCD50379E` (the u32 form of `-0x32AFC862`),
reduced mod `2^32`. -/
theorem c8_key_schedule_loop_count (t tk : Nat) (keys : List Nat)
    (ht : t < 2 ^ 32) (htk : tk < 2 ^ 32) :
    magic_loop_count t = t % 7 + 2 ∧
      calc_blowfish_keys keys tk =
        (Nat.iterate (get_key keys) ((0x8E02C25C ^^^ tk) % 7 + 2)
            (0x8E02C25C ^^^ tk) ^^^ 0x4352F5C2 ^^^ 0xCD50379E) % 2 ^ 32 := by
  constructor
  · exact magic_loop_count_eq_mod t ht
  · have h0 : (0x8E02C25C ^^^ tk) < 2 ^ 32 :=
      Nat.xor_lt_two_pow (by norm_num) htk
    unfold calc_blowfish_keys
    simp only [magic_loop_count_eq_mod _ h0]

/-- Witness for `c8_key_schedule_loop_count` at `t = 9`, `tk = 3`,
an empty key blob. -/
theorem c8_key_schedule_loop_count_witness :
    (9 : Nat) < 2 ^ 32 ∧ (3 : Nat) < 2 ^ 32 ∧
      (magic_loop_count 9 = 9 % 7 + 2 ∧
        calc_blowfish_keys [] 3 =
          (Nat.iterate (get_key []) ((0x8E02C25C ^^^ 3) % 7 + 2)
              (0x8E02C25C ^^^ 3) ^^^ 0x4352F5C2 ^^^ 0xCD50379E) % 2 ^ 32) :=
  ⟨by decide, by decide, c8_key_schedule_loop_count 9 3 [] (by decide) (by decide)⟩

/-- C4 counterexample: on `niflSample` the source loop
(`_split_headerless_nifl`) reads the body length at offset `0x14` (value
32) and the `NOF0` length at offset 40, producing a record of exactly 64
bytes, while the claim's recipe (body length at offset `0x10`, value 40;
`NOF0` length at offset 44; round-up padding) yields 72 — so the record
read does not span the number of bytes the claim computes. -/
theorem c4_counterexample :
    split_headerless_nifl ⟨0, 0, 1, 0⟩ niflSample = some [niflSample] ∧
      niflSample.length = 64 ∧
      claim_nifl_record_extent niflSample 0 = some 72 ∧ (72 : Int) ≠ 64 := by
  refine ⟨by decide, by decide, by decide, by decide⟩

/-- C4 (amended): each NIFL record's extent is computed by reading the
body length as an i32 at offset `0x14` from the record start (`0x10` past
the `NIFL` tag consumed by the `16x` skip), seeking `size - 0x10` forward
from offset `0x18` (so the `NOF0` chunk length i32 is read at
`start + size + 8`), adding 8 for the `NOF0` tag and size, adding
`0x10 - (that % 0x10)` padding bytes (a full extra `0x10` when the amount
is already a multiple of `0x10`), and adding another `0x10` for the
trailing `NEND` marker — `nifl_record_extent`; the record read from the
stream spans exactly that many bytes from the record start. -/
theorem c4_nifl_record_span (data : List Nat) (hdr : GroupHeader)
    (hn : is_nifl data = true) (hfc : hdr.file_count = 1) (ext : Int)
    (hext : nifl_record_extent data 0 = some ext)
    (hpos : 0 < ext) (hlen : ext ≤ (data.length : Int)) :
    split_headerless_nifl hdr data = some [data.take ext.toNat] := by
  have htake : data.take 4 = [0x4E, 0x49, 0x46, 0x4C] := by
    simpa [is_nifl] using hn
  obtain ⟨rest, rfl⟩ : ∃ rest, data = 0x4E :: 0x49 :: 0x46 :: 0x4C :: rest := by
    rcases data with _ | ⟨a, tl⟩
    · simp at htake
    rcases tl with _ | ⟨b, tl⟩
    · simp at htake
    rcases tl with _ | ⟨c, tl⟩
    · simp at htake
    rcases tl with _ | ⟨d, tl⟩
    · simp at htake
    · simp only [List.take_succ_cons, List.take_zero, List.cons.injEq, and_true] at htake
      obtain ⟨rfl, rfl, rfl, rfl⟩ := htake
      exact ⟨tl, rfl⟩
  have hton : ∃ m, ext.toNat = m + 1 := by
    refine ⟨ext.toNat - 1, ?_⟩
    omega
  obtain ⟨m, hm⟩ := hton
  have hchunk : readAt (0x4E :: 0x49 :: 0x46 :: 0x4C :: rest) 0 ext =
      (0x4E :: 0x49 :: 0x46 :: 0x4C :: rest).take ext.toNat := by
    unfold readAt
    rw [if_neg (by omega), List.drop_zero]
  have hchunk_cons : (0x4E :: 0x49 :: 0x46 :: 0x4C :: rest).take ext.toNat =
      0x4E :: ((0x49 :: 0x46 :: 0x4C :: rest).take m) := by
    rw [hm, List.take_succ_cons]
  unfold split_headerless_nifl
  rw [hfc]
  unfold split_nifl_loop
  rw [if_neg (by simp)]
  rw [hext]
  simp only [hchunk, hchunk_cons]
  unfold dataFile_from_stream
  simp only [List.drop_zero, List.take_succ_cons, is_headerless_file, List.headD_cons]
  norm_num
  unfold split_nifl_loop
  simp

/-- Witness for `c4_nifl_record_span` on `niflSample` with extent 64. -/
theorem c4_nifl_record_span_witness :
    is_nifl niflSample = true ∧
      (GroupHeader.file_count ⟨0, 0, 1, 0⟩ = 1) ∧
      nifl_record_extent niflSample 0 = some 64 ∧
      (0 : Int) < 64 ∧ (64 : Int) ≤ (niflSample.length : Int) ∧
      split_headerless_nifl ⟨0, 0, 1, 0⟩ niflSample =
        some [niflSample.take (64 : Int).toNat] :=
  ⟨by decide, by decide, by decide, by decide, by decide,
    c4_nifl_record_span niflSample ⟨0, 0, 1, 0⟩ (by decide) (by decide) 64
      (by decide) (by decide) (by decide)⟩

/-- Helper: a Python slice of width `cs ≥ 0` has at most `cs` elements. -/
theorem pySlice_length_le_toNat (l : List Nat) (a cs : Int) (hcs : 0 ≤ cs) :
    (pySlice l a (a + cs)).length ≤ cs.toNat := by
  unfold pySlice
  simp only [List.length_take, List.length_drop]
  split_ifs <;> omega

/-- Helper: a Python slice of negative width `cs` still has at most
`len(l) + cs` elements (a negative upper bound wraps to `len(l) + cs`). -/
theorem pySlice_length_le_of_neg (l : List Nat) (a cs : Int) (hcs : cs < 0) :
    (pySlice l a (a + cs)).length ≤ ((l.length : Int) + cs).toNat := by
  unfold pySlice
  simp only [List.length_take, List.length_drop]
  split_ifs <;> omega

/-- Helper: a clamped back-reference copy grows the output by at most
`out_size` bytes and leaves the input position unchanged. -/
theorem prsExtend_spec (out_size : Nat) (st : PrsState) (offset : Int) (cs0 : Nat) :
    (prsExtend out_size st offset cs0).out.length ≤ st.out.length + out_size ∧
      (prsExtend out_size st offset cs0).pos = st.pos := by
  refine ⟨?_, rfl⟩
  simp only [prsExtend, List.length_append]
  by_cases h : 0 ≤ min (cs0 : Int) ((out_size : Int) - st.out.length)
  · have h1 := pySlice_length_le_toNat st.out
      ((st.out.length : Int) + offset) (min (cs0 : Int) ((out_size : Int) - st.out.length)) h
    omega
  · push_neg at h
    have h1 := pySlice_length_le_of_neg st.out
      ((st.out.length : Int) + offset) (min (cs0 : Int) ((out_size : Int) - st.out.length)) h
    omega

/-- Helper: a successful `read_byte` advances the position by one (within
bounds) and leaves the output untouched. -/
theorem prsReadByte_spec {data : List Nat} {st : PrsState} {v : Nat} {st1 : PrsState}
    (h : prsReadByte data st = some (v, st1)) :
    st1.out = st.out ∧ st1.pos = st.pos + 1 ∧ st.pos < data.length := by
  unfold prsReadByte at h
  cases hget : data.get? st.pos with
  | none => rw [hget] at h; exact absurd h (by simp)
  | some b =>
    rw [hget] at h
    have hlt : st.pos < data.length := by
      by_contra hc
      push_neg at hc
      rw [List.get?_eq_none.mpr hc] at hget
      exact absurd hget (by simp)
    simp only [Option.some.injEq, Prod.mk.injEq] at h
    obtain ⟨-, rfl⟩ := h
    exact ⟨rfl, rfl, hlt⟩

/-- Helper: a successful `get_ctrl_bit` advances the position by at most
one and leaves the output untouched. -/
theorem prsGetCtrlBit_spec {data : List Nat} {st : PrsState} {b : Bool} {st1 : PrsState}
    (h : prsGetCtrlBit data st = some (b, st1)) :
    st1.out = st.out ∧ st.pos ≤ st1.pos ∧ st1.pos ≤ st.pos + 1 := by
  unfold prsGetCtrlBit at h
  split at h
  · cases hget : data.get? st.pos with
    | none => rw [hget] at h; exact absurd h (by simp)
    | some c =>
      rw [hget] at h
      simp only [Option.some.injEq, Prod.mk.injEq] at h
      obtain ⟨-, rfl⟩ := h
      exact ⟨rfl, Nat.le_succ _, Nat.le_refl _⟩
  · simp only [Option.some.injEq, Prod.mk.injEq] at h
    obtain ⟨-, rfl⟩ := h
    exact ⟨rfl, Nat.le_refl _, Nat.le_succ _⟩

/-- Helper: the literal loop only shrinks the measure
`output length + remaining input`, since each copied literal consumes an
input byte; a `StopIteration` return keeps the output bounded by the same
measure. -/
theorem prsLiterals_spec (data : List Nat) : ∀ (fuel : Nat) (st : PrsState),
    (∀ l, prsLiterals data fuel st = .inl (.done l) →
        l.length ≤ st.out.length + (data.length - st.pos)) ∧
    (∀ st1, prsLiterals data fuel st = .inr st1 →
        st1.out.length + (data.length - st1.pos) ≤
            st.out.length + (data.length - st.pos) ∧
          st.pos ≤ st1.pos) := by
  intro fuel
  induction fuel with
  | zero =>
    intro st
    constructor
    · intro l h
      exact absurd h (by simp [prsLiterals])
    · intro st1 h
      simp only [prsLiterals, Sum.inr.injEq] at h
      subst h
      exact ⟨Nat.le_refl _, Nat.le_refl _⟩
  | succ fuel ih =>
    intro st
    have main : ∀ r, prsLiterals data (fuel + 1) st = r →
        (∀ l, r = .inl (.done l) →
            l.length ≤ st.out.length + (data.length - st.pos)) ∧
        (∀ st1, r = .inr st1 →
            st1.out.length + (data.length - st1.pos) ≤
                st.out.length + (data.length - st.pos) ∧
              st.pos ≤ st1.pos) := by
      intro r h
      unfold prsLiterals at h
      cases hbit : prsGetCtrlBit data st with
      | none =>
        rw [hbit] at h
        subst h
        exact ⟨fun l hl => absurd hl (by simp), fun st1 h1 => absurd h1 (by simp)⟩
      | some p =>
        obtain ⟨flag, stb⟩ := p
        obtain ⟨hout, hpos1, hpos2⟩ := prsGetCtrlBit_spec hbit
        rw [hbit] at h
        cases flag with
        | false =>
          simp only at h
          subst h
          refine ⟨fun l hl => absurd hl (by simp), fun st1 h1 => ?_⟩
          injection h1 with hh
          subst hh
          constructor
          · rw [hout]
            omega
          · exact hpos1
        | true =>
          simp only at h
          cases hread : prsReadByte data stb with
          | none =>
            rw [hread] at h
            subst h
            refine ⟨fun l hl => ?_, fun st1 h1 => absurd h1 (by simp)⟩
            injection hl with hh
            injection hh with hh2
            subst hh2
            rw [hout]
            omega
          | some q =>
            obtain ⟨v, stc⟩ := q
            obtain ⟨hout2, hpos3, hlt⟩ := prsReadByte_spec hread
            rw [hread] at h
            simp only at h
            have hrec := ih ⟨stc.pos, stc.ctrl, stc.cnt, stc.out ++ [v]⟩
            dsimp only at hrec
            have hlen : (stc.out ++ [v]).length = stc.out.length + 1 := by simp
            have hL : stc.out.length = st.out.length := by rw [hout2, hout]
            constructor
            · intro l hl
              subst hl
              have hl2 := hrec.1 l h
              omega
            · intro st1 h1
              subst h1
              have hl2 := hrec.2 st1 h
              exact ⟨by omega, by omega⟩
    exact main _ rfl

/-- Helper: one back-reference step.  A terminal return carries the output
unchanged; a continuing step consumes at least one input byte and grows
the output by at most `out_size`, strictly decreasing the measure
`output length + remaining input + 1 - out_size`. -/
theorem prsCopy_spec (data : List Nat) (out_size : Nat) (st1 : PrsState) :
    (∀ l, prsCopy data out_size st1 = .inl (.done l) → l.length ≤ st1.out.length) ∧
    (∀ st2, prsCopy data out_size st1 = .inr st2 →
        st1.pos ≤ st2.pos ∧
          st2.out.length + (data.length - st2.pos) + 1 ≤
            st1.out.length + (data.length - st1.pos) + out_size) := by
  have main : ∀ r, prsCopy data out_size st1 = r →
      (∀ l, r = .inl (.done l) → l.length ≤ st1.out.length) ∧
      (∀ st2, r = .inr st2 →
          st1.pos ≤ st2.pos ∧
            st2.out.length + (data.length - st2.pos) + 1 ≤
              st1.out.length + (data.length - st1.pos) + out_size) := by
    intro r h
    unfold prsCopy at h
    cases hb1 : prsGetCtrlBit data st1 with
    | none =>
      rw [hb1] at h
      subst h
      exact ⟨fun l hl => absurd hl (by simp), fun st2 h2 => absurd h2 (by simp)⟩
    | some p1 =>
      obtain ⟨flag, s1⟩ := p1
      obtain ⟨ho1, hp1a, hp1b⟩ := prsGetCtrlBit_spec hb1
      rw [hb1] at h
      cases flag with
      | true =>
        simp only at h
        split at h
        · subst h
          refine ⟨fun l hl => ?_, fun st2 h2 => absurd h2 (by simp)⟩
          injection hl with hh
          injection hh with hh2
          subst hh2
          rw [ho1]
        · cases hrd0 : prsReadByte data s1 with
          | none =>
            rw [hrd0] at h
            subst h
            refine ⟨fun l hl => ?_, fun st2 h2 => absurd h2 (by simp)⟩
            injection hl with hh
            injection hh with hh2
            subst hh2
            rw [ho1]
          | some q0 =>
            obtain ⟨d0, s2⟩ := q0
            obtain ⟨ho2, hp2, hlt2⟩ := prsReadByte_spec hrd0
            rw [hrd0] at h
            simp only at h
            cases hrd1 : prsReadByte data s2 with
            | none =>
              rw [hrd1] at h
              subst h
              refine ⟨fun l hl => ?_, fun st2 h2 => absurd h2 (by simp)⟩
              injection hl with hh
              injection hh with hh2
              subst hh2
              rw [ho2, ho1]
            | some q1 =>
              obtain ⟨d1, s3⟩ := q1
              obtain ⟨ho3, hp3, hlt3⟩ := prsReadByte_spec hrd1
              rw [hrd1] at h
              simp only at h
              split at h
              · subst h
                refine ⟨fun l hl => ?_, fun st2 h2 => absurd h2 (by simp)⟩
                injection hl with hh
                injection hh with hh2
                subst hh2
                rw [ho3, ho2, ho1]
              · split at h
                · subst h
                  refine ⟨fun l hl => absurd hl (by simp), fun st2 h2 => ?_⟩
                  injection h2 with hh
                  subst hh
                  obtain ⟨he1, he2⟩ := prsExtend_spec out_size s3
                    (((d1 <<< 5) + (d0 >>> 3) : Int) - 0x2000) ((d0 &&& 7) + 2)
                  rw [ho3, ho2, ho1] at he1
                  rw [he2]
                  constructor
                  · omega
                  · omega
                · cases hrde : prsReadByte data s3 with
                  | none =>
                    rw [hrde] at h
                    subst h
                    refine ⟨fun l hl => ?_, fun st2 h2 => absurd h2 (by simp)⟩
                    injection hl with hh
                    injection hh with hh2
                    subst hh2
                    rw [ho3, ho2, ho1]
                  | some qe =>
                    obtain ⟨e, s4⟩ := qe
                    obtain ⟨ho4, hp4, hlt4⟩ := prsReadByte_spec hrde
                    rw [hrde] at h
                    simp only at h
                    subst h
                    refine ⟨fun l hl => absurd hl (by simp), fun st2 h2 => ?_⟩
                    injection h2 with hh
                    subst hh
                    obtain ⟨he1, he2⟩ := prsExtend_spec out_size s4
                      (((d1 <<< 5) + (d0 >>> 3) : Int) - 0x2000) (e + 10)
                    rw [ho4, ho3, ho2, ho1] at he1
                    rw [he2]
                    constructor
                    · omega
                    · omega
      | false =>
        simp only at h
        cases hb2 : prsGetCtrlBit data s1 with
        | none =>
          rw [hb2] at h
          subst h
          exact ⟨fun l hl => absurd hl (by simp), fun st2 h2 => absurd h2 (by simp)⟩
        | some p2 =>
          obtain ⟨b1, s2⟩ := p2
          obtain ⟨ho2, hp2a, hp2b⟩ := prsGetCtrlBit_spec hb2
          rw [hb2] at h
          simp only at h
          cases hb3 : prsGetCtrlBit data s2 with
          | none =>
            rw [hb3] at h
            subst h
            exact ⟨fun l hl => absurd hl (by simp), fun st2 h2 => absurd h2 (by simp)⟩
          | some p3 =>
            obtain ⟨b2, s3⟩ := p3
            obtain ⟨ho3, hp3a, hp3b⟩ := prsGetCtrlBit_spec hb3
            rw [hb3] at h
            simp only at h
            cases hro : prsReadByte data s3 with
            | none =>
              rw [hro] at h
              subst h
              refine ⟨fun l hl => ?_, fun st2 h2 => absurd h2 (by simp)⟩
              injection hl with hh
              injection hh with hh2
              subst hh2
              rw [ho3, ho2, ho1]
            | some qo =>
              obtain ⟨ob, s4⟩ := qo
              obtain ⟨ho4, hp4, hlt4⟩ := prsReadByte_spec hro
              rw [hro] at h
              simp only at h
              subst h
              refine ⟨fun l hl => absurd hl (by simp), fun st2 h2 => ?_⟩
              injection h2 with hh
              subst hh
              obtain ⟨he1, he2⟩ := prsExtend_spec out_size s4 ((ob : Int) - 0x100)
                (2 + (if b1 then 2 else 0) + (if b2 then 1 else 0))
              rw [ho4, ho3, ho2, ho1] at he1
              rw [he2]
              constructor
              · omega
              · omega
  exact main _ rfl

/-- Helper: the outer decoder loop keeps the returned length within
`max (current output) (2 * out_size)` plus the remaining input. -/
theorem prsLoop_length (data : List Nat) (out_size : Nat) :
    ∀ (fuel : Nat) (st : PrsState) (l : List Nat),
      prsLoop data out_size fuel st = .done l →
      l.length ≤ max st.out.length (2 * out_size) + (data.length - st.pos) := by
  intro fuel
  induction fuel with
  | zero =>
    intro st l h
    injection h with hh
    subst hh
    omega
  | succ fuel ih =>
    intro st l h
    unfold prsLoop at h
    split at h
    · cases hlit : prsLiterals data (data.length + 1) st with
      | inl r0 =>
        rw [hlit] at h
        simp only at h
        subst h
        have hb := (prsLiterals_spec data (data.length + 1) st).1 l hlit
        omega
      | inr s1 =>
        rw [hlit] at h
        simp only at h
        have hl1 := (prsLiterals_spec data (data.length + 1) st).2 s1 hlit
        cases hcopy : prsCopy data out_size s1 with
        | inl r0 =>
          rw [hcopy] at h
          simp only at h
          subst h
          have hb := (prsCopy_spec data out_size s1).1 l hcopy
          omega
        | inr s2 =>
          rw [hcopy] at h
          simp only at h
          have hc := (prsCopy_spec data out_size s1).2 s2 hcopy
          have hrec := ih s2 l h
          omega
    · injection h with hh
      subst hh
      omega

/-- C2: with the input whose bitstream is one literal `0x41` followed by a
long back-reference of offset −1 and size 3, `decompress_prs` emits only
2 bytes — the slice `output[0:3]` of the 1-byte output is just `[0x41]`,
so the self-overlapping reference copies only the byte that existed
before the copy began, not 3 bytes RLE-style as the claim (and PRS
semantics) require, which would give `[0x41, 0x41, 0x41, 0x41]`. -/
theorem c2_prs_overlap_not_rle :
    decompress_prs [0x05, 0x41, 0xF9, 0xFF] 4 = .done [0x41, 0x41] ∧
      ([0x41, 0x41] : List Nat).length ≠ 4 := by
  refine ⟨by decide, by decide⟩

/-- C3 counterexample: the literal loop has no length check, so with
control byte `0x07` (three literal bits) and `out_size = 1` the decoder
returns 3 bytes, exceeding `out_size`. -/
theorem c3_counterexample :
    decompress_prs [0x07, 0x41, 0x42, 0x43] 1 = .done [0x41, 0x42, 0x43] ∧
      ¬ (([0x41, 0x42, 0x43] : List Nat).length ≤ 1) := by
  refine ⟨by decide, by decide⟩

/-- C3 (amended): whenever `decompress_prs` returns a byte string (it
raises IndexError when the input is exhausted at a control-byte refill),
its length is at most `2 * out_size + len(input)`: back-reference copies
are clamped to `out_size - len(output)` (one final copy over an
already-overfull output can still add up to `out_size` bytes through the
negative-bound slice), while literal copies under control bit 1 are not
length-checked and each consumes an input byte; the decoder halts on the
`(0,0)` sentinel, on exhaustion during a data-byte read, or once
`out_size` bytes have been produced at the loop tests. -/
theorem c3_prs_output_length_bound (data : List Nat) (out_size : Nat)
    (r : List Nat) (h : decompress_prs data out_size = .done r) :
    r.length ≤ 2 * out_size + data.length := by
  have h2 : prsLoop data out_size (data.length + 1) ⟨0, 0, 1, []⟩ = .done r := h
  have h3 := prsLoop_length data out_size (data.length + 1) ⟨0, 0, 1, []⟩ r h2
  simp only [List.length_nil] at h3
  omega

/-- Witness for `c3_prs_output_length_bound`: the sentinel input
`[0x02, 0, 0]` with `out_size = 5` returns the empty output. -/
theorem c3_prs_output_length_bound_witness :
    decompress_prs [0x02, 0, 0] 5 = .done [] ∧
      ([] : List Nat).length ≤ 2 * 5 + ([0x02, 0, 0] : List Nat).length :=
  ⟨by decide, c3_prs_output_length_bound [0x02, 0, 0] 5 [] (by decide)⟩

/-- C10: empty groups short-circuit.  A `GroupHeader` with
`stored_size = 0` makes `extract_group` return the empty payload with the
stream untouched — for every decrypt and decompress function and even
with `encrypted = true` — and `split_group` on an empty payload returns
the empty file list whatever the header (and its `file_count`) is. -/
theorem c10_empty_group_short_circuit (hdr hdr2 : GroupHeader)
    (stream : List Nat) (dec : List Nat → List Nat)
    (dcmp : List Nat → Nat → List Nat) (enc : Bool)
    (h : hdr.stored_size = 0) :
    extract_group hdr stream dec dcmp enc = ([], stream) ∧
      split_group hdr2 [] = some [] := by
  constructor
  · simp [extract_group, h]
  · simp [split_group]

/-- Witness for `c10_empty_group_short_circuit` with an all-zero first
header, `encrypted = true`, and a second header listing 5 files. -/
theorem c10_empty_group_short_circuit_witness :
    (GroupHeader.stored_size ⟨0, 0, 3, 7⟩ = 0) ∧
      extract_group ⟨0, 0, 3, 7⟩ [1, 2, 3] (fun d => d) (fun d _ => d) true =
          ([], [1, 2, 3]) ∧
        split_group ⟨4, 5, 5, 6⟩ [] = some [] :=
  ⟨by decide,
    c10_empty_group_short_circuit ⟨0, 0, 3, 7⟩ ⟨4, 5, 5, 6⟩ [1, 2, 3]
      (fun d => d) (fun d _ => d) true (by decide)⟩

end Zamboni
